import Mathlib

/-!
Verification of the tile-lifecycle/cache subsystem declared in
src/mbgl/style/source_impl.hpp (class Source::Impl, its live-tiles map
`std::map<OverscaledTileID, std::unique_ptr<Tile>> tiles`, its `TileCache cache`,
and its render-tiles map `std::map<UnwrappedTileID, RenderTile> renderTiles`).

The repository snapshot contains only the declaring header; the member-function
bodies (source_impl.cpp), the TileCache implementation (tile_cache.hpp/cpp) and
the tile-cover computation are not present, so they are modelled from the
specification, definition by definition, as flagged in the doc comments below.
Machine maps are shallowly embedded as association lists; a Tile's C++ object
identity is embedded as an explicit `tileId : Nat` allocated from a counter.
-/

namespace MbglTiles

/-- Canonical tile coordinates: position within one copy of the world at zoom `z`. -/
structure CanonicalID where
  z : Nat
  x : Nat
  y : Nat
deriving DecidableEq, Repr

/-- OverscaledTileID: the key of the live-tiles map (`std::map<OverscaledTileID, ...>`).
`overscaledZ` may exceed `canonical.z` when a tile is rendered at higher detail than
the source provides. It carries no wrap, so world-wrapped copies share one entry. -/
structure OverscaledTileID where
  overscaledZ : Nat
  canonical : CanonicalID
deriving DecidableEq, Repr

/-- UnwrappedTileID: render-time identity — distinct wraps are distinct renderable
placements even though they share Tile data. -/
structure UnwrappedTileID where
  wrap : Int
  canonical : CanonicalID
deriving DecidableEq, Repr

/-- Tile load state. -/
inductive TileState where
  | Loading
  | Loaded
  | Errored
deriving DecidableEq, Repr

/-- Feature payload element carried by a loaded tile, tagged with its source-layer name. -/
structure Feature where
  layer : String
  featureId : Nat
deriving DecidableEq, Repr

/-- Tile: a single loaded-or-loading unit of map data at one address.
`tileId` embeds the C++ object identity (which heap instance this is). -/
structure Tile where
  tileId : Nat
  id : OverscaledTileID
  state : TileState
  features : List Feature
deriving DecidableEq, Repr

/-- Lookup by key in an association list (embeds map find). -/
def lookupKey {κ β : Type} [DecidableEq κ] (k : κ) : List (κ × β) → Option β
  | [] => none
  | (k₁, v) :: l => if k₁ = k then some v else lookupKey k l

/-- Remove the first entry with the given key from an association list. -/
def eraseKey {κ β : Type} [DecidableEq κ] (k : κ) : List (κ × β) → List (κ × β)
  | [] => []
  | (k₁, v) :: l => if k₁ = k then l else (k₁, v) :: eraseKey k l

/-- Modelled from the spec: TileCache (tile_cache.hpp/cpp is not in the snapshot).
`entries` is kept in retirement order, oldest first; `capacity` bounds it. -/
structure TileCache where
  capacity : Nat
  entries : List (OverscaledTileID × Tile)
deriving DecidableEq, Repr

namespace TileCache

/-- Number of retained tiles. -/
def size (c : TileCache) : Nat := c.entries.length

/-- Modelled from the spec: evict (discard) oldest-retired entries until
occupancy is at most capacity. -/
def trim (c : TileCache) : TileCache :=
  { c with entries := c.entries.drop (c.entries.length - c.capacity) }

/-- Modelled from the spec: retire a tile into the cache. With capacity 0 the
tile is discarded immediately; otherwise it is appended as the newest entry and
the oldest entries are evicted while over capacity. -/
def add (c : TileCache) (k : OverscaledTileID) (t : Tile) : TileCache :=
  if c.capacity = 0 then c
  else trim { c with entries := c.entries ++ [(k, t)] }

/-- Modelled from the spec: look up a retired tile by address and, when found,
move it out of the cache (the pair returned is the tile and the shrunk cache). -/
def get (c : TileCache) (k : OverscaledTileID) : Option Tile × TileCache :=
  match lookupKey k c.entries with
  | none => (none, c)
  | some t => (some t, { c with entries := eraseKey k c.entries })

/-- Modelled from the spec: set the capacity and evict oldest-retired entries
until occupancy is at most the new capacity. -/
def setSize (c : TileCache) (n : Nat) : TileCache :=
  trim { c with capacity := n }

/-- Modelled from the spec: drop every retained tile. -/
def clear (c : TileCache) : TileCache :=
  { c with entries := [] }

end TileCache

/-- One mutating TileCache operation, for stating the occupancy invariant over
arbitrary operation sequences. -/
inductive CacheOp where
  | retire (k : OverscaledTileID) (t : Tile)
  | reuse (k : OverscaledTileID)
  | setCacheSize (n : Nat)
deriving DecidableEq, Repr

/-- Apply one cache operation. -/
def applyCacheOp (c : TileCache) : CacheOp → TileCache
  | .retire k t => c.add k t
  | .reuse k => (c.get k).2
  | .setCacheSize n => c.setSize n

/-- RenderTile: ephemeral per-frame render entry for one wrapped placement of a
live tile. `sourceKey` is the live-tiles key the entry was built from and
`tileId` the identity of the referenced Tile instance (a non-owning reference). -/
structure RenderTile where
  id : UnwrappedTileID
  sourceKey : OverscaledTileID
  tileId : Nat
  clipId : Nat
deriving DecidableEq, Repr

/-- Modelled from the spec: the inputs of the ActiveSetCalculator (UpdateParameters):
viewport bounds in tile coordinates at the camera zoom, the camera zoom, and the
source's native zoom range. -/
structure UpdateParameters where
  zoom : Nat
  minX : Nat
  maxX : Nat
  minY : Nat
  maxY : Nat
  minZoom : Nat
  maxZoom : Nat
deriving DecidableEq, Repr

/-- Modelled from the spec: the ActiveSetCalculator (the tile-cover computation is
not in the snapshot). Clamps the requested zoom to the source's native range,
marks out-of-range requests overscaled at the nearest supported zoom, converts
the viewport bounds to that zoom and emits the covering grid of addresses in
row-major order. Pure computation. -/
def activeSet (p : UpdateParameters) : List OverscaledTileID :=
  let cz := min (max p.zoom p.minZoom) p.maxZoom
  let oz := max p.zoom cz
  let conv := fun (v : Nat) =>
    if cz ≤ p.zoom then v / 2 ^ (p.zoom - cz) else v * 2 ^ (cz - p.zoom)
  let x₀ := conv p.minX
  let x₁ := conv p.maxX
  let y₀ := conv p.minY
  let y₁ := conv p.maxY
  (List.range (x₁ + 1 - x₀)).flatMap fun dx =>
    (List.range (y₁ + 1 - y₀)).map fun dy =>
      { overscaledZ := oz, canonical := { z := cz, x := x₀ + dx, y := y₀ + dy } }

/-- Ancestor test on canonical coordinates: `a` covers `b` when `b` truncated to
zoom `a.z` lands on `a`. -/
def CanonicalID.isAncestorOf (a b : CanonicalID) : Bool :=
  decide (a.z ≤ b.z) && decide (b.x / 2 ^ (b.z - a.z) = a.x)
    && decide (b.y / 2 ^ (b.z - a.z) = a.y)

/-- A live key is related to the ideal set when it is an ancestor or a descendant
of some ideal address (candidate cross-fade fallback). -/
def relatedTo (k : OverscaledTileID) (ideal : List OverscaledTileID) : Bool :=
  ideal.any fun i =>
    k.canonical.isAncestorOf i.canonical || i.canonical.isAncestorOf k.canonical

/-- Source::Impl state: the live-tiles map, the reuse cache, the per-frame render
list, the instance-identity counter for createTile, and a count of load requests
issued to the external loader. -/
structure SourceImpl where
  tiles : List (OverscaledTileID × Tile)
  cache : TileCache
  renderTiles : List RenderTile
  nextTileId : Nat
  loadsIssued : Nat
deriving DecidableEq, Repr

namespace SourceImpl

/-- Modelled from the spec: step 2 of reconciliation for one ideal address
(source_impl.cpp is not in the snapshot). If the address is already live, nothing
happens; else if the cache holds it, the cached Tile instance moves into
live-tiles with no reload; else a fresh Tile is constructed in Loading state and
one load request is issued. -/
def acquireTile (_p : UpdateParameters) (m : SourceImpl) (k : OverscaledTileID) :
    SourceImpl :=
  if (lookupKey k m.tiles).isSome then m
  else
    match m.cache.get k with
    | (some t, c₁) => { m with tiles := m.tiles ++ [(k, t)], cache := c₁ }
    | (none, _) =>
      { m with
        tiles := m.tiles ++ [(k, ⟨m.nextTileId, k, TileState.Loading, []⟩)],
        nextTileId := m.nextTileId + 1,
        loadsIssued := m.loadsIssued + 1 }

/-- Modelled from the spec: whether the live tile at `k` has reached Loaded or
Errored (a missing tile counts as incomplete). -/
def tileComplete (m : SourceImpl) (k : OverscaledTileID) : Bool :=
  match lookupKey k m.tiles with
  | some t => decide (t.state ≠ TileState.Loading)
  | none => false

/-- Modelled from the spec: Source::Impl::removeStaleTiles — every live tile
whose address is not in the retain set is removed from live-tiles and retired
into the cache (subject to capacity eviction). -/
def removeStaleTiles (retain : List OverscaledTileID) (m : SourceImpl) :
    SourceImpl :=
  { m with
    tiles := m.tiles.filter fun kt => decide (kt.1 ∈ retain),
    cache := (m.tiles.filter fun kt => ! decide (kt.1 ∈ retain)).foldl
      (fun c kt => c.add kt.1 kt.2) m.cache }

/-- Modelled from the spec: the retain set of one reconciliation pass — the
ideal set itself, widened with the live ancestor/descendant fallback addresses
while some ideal tile is still loading (stale-tile sweep, spec step 4). -/
def retainSet (ideal : List OverscaledTileID) (m₁ : SourceImpl) :
    List OverscaledTileID :=
  if ideal.all (fun k => tileComplete m₁ k) then ideal
  else ideal ++ (m₁.tiles.map Prod.fst).filter (fun k => relatedTo k ideal)

/-- Modelled from the spec: the reconciliation core of Source::Impl::updateTiles,
parameterised by the ideal address list. Acquires every ideal address (reuse from
cache or fresh load), then retires every live tile outside the retain set. -/
def updateTilesWith (p : UpdateParameters) (ideal : List OverscaledTileID)
    (m : SourceImpl) : SourceImpl :=
  removeStaleTiles (retainSet ideal (ideal.foldl (acquireTile p) m))
    (ideal.foldl (acquireTile p) m)

/-- Modelled from the spec: Source::Impl::updateTiles — compute the ideal set for
the camera parameters and reconcile the live-tiles map against it. -/
def updateTiles (p : UpdateParameters) (m : SourceImpl) : SourceImpl :=
  updateTilesWith p (activeSet p) m

/-- Modelled from the spec: Source::Impl::removeTiles — retire every live tile
into the cache. -/
def removeTiles (m : SourceImpl) : SourceImpl :=
  removeStaleTiles [] m

/-- Modelled from the spec: Source::Impl::invalidateTiles — discard every live
tile and clear the cache unconditionally (no retire); the per-frame render list
is dropped with them. -/
def invalidateTiles (m : SourceImpl) : SourceImpl :=
  { m with tiles := [], cache := m.cache.clear, renderTiles := [] }

/-- Modelled from the spec: Source::Impl::reloadTiles — re-issue the load for
every live tile against current style parameters without changing membership;
each state resets to Loading. -/
def reloadTiles (m : SourceImpl) : SourceImpl :=
  { m with
    tiles := m.tiles.map fun kt => (kt.1, { kt.2 with state := TileState.Loading }),
    loadsIssued := m.loadsIssued + m.tiles.length }

/-- Modelled from the spec: Source::Impl::setCacheSize — forwards to the cache. -/
def setCacheSize (m : SourceImpl) (n : Nat) : SourceImpl :=
  { m with cache := m.cache.setSize n }

/-- Modelled from the spec: Source::Impl::onLowMemory — one-shot purge: drop all
cache entries, keeping the configured capacity for subsequent retirements. -/
def onLowMemory (m : SourceImpl) : SourceImpl :=
  { m with cache := { m.cache with entries := [] } }

end SourceImpl

/-- Render ordering: ascending zoom first (coarser tiles precede finer ones),
then lexicographically by address (canonical z, x, y) and wrap, so iteration is
stable. Ignores clipId. -/
def rtLe (a b : RenderTile) : Bool :=
  decide (a.sourceKey.overscaledZ < b.sourceKey.overscaledZ) ||
  (decide (a.sourceKey.overscaledZ = b.sourceKey.overscaledZ) &&
    (decide (a.id.canonical.z < b.id.canonical.z) ||
      (decide (a.id.canonical.z = b.id.canonical.z) &&
        (decide (a.id.canonical.x < b.id.canonical.x) ||
          (decide (a.id.canonical.x = b.id.canonical.x) &&
            (decide (a.id.canonical.y < b.id.canonical.y) ||
              (decide (a.id.canonical.y = b.id.canonical.y) &&
                decide (a.id.wrap ≤ b.id.wrap))))))))

/-- Insert an element into a list sorted by the comparator. -/
def insertLe {α : Type} (le : α → α → Bool) (a : α) : List α → List α
  | [] => [a]
  | b :: l => if le a b then a :: b :: l else b :: insertLe le a l

/-- Insertion sort by the comparator. -/
def sortLe {α : Type} (le : α → α → Bool) : List α → List α
  | [] => []
  | a :: l => insertLe le a (sortLe le l)

/-- Assign clip identifiers positionally: the n-th render tile of the sorted
frame list gets clip id n, counting from the given start. -/
def assignClipIds : Nat → List RenderTile → List RenderTile
  | _, [] => []
  | n, r :: l => { r with clipId := n } :: assignClipIds (n + 1) l

/-- Consecutive clip identifiers, `len` of them counting up from `n` (the dense
id range a frame consumes). -/
def clipRange (n len : Nat) : List Nat :=
  match len with
  | 0 => []
  | len + 1 => n :: clipRange (n + 1) len

namespace SourceImpl

/-- Modelled from the spec: the RenderListBuilder walk — one RenderTile per
Loaded live tile and per wrap offset required by the viewport, clip ids not yet
assigned. -/
def renderEntries (wraps : List Int) (m : SourceImpl) : List RenderTile :=
  wraps.flatMap fun w =>
    m.tiles.filterMap fun kt =>
      if kt.2.state = TileState.Loaded then
        some { id := { wrap := w, canonical := kt.1.canonical },
               sourceKey := kt.1, tileId := kt.2.tileId, clipId := 0 }
      else none

/-- Modelled from the spec: Source::Impl::startRender — rebuild the render-tiles
list for this frame: walk the Loaded live tiles across the required wraps, sort
by ascending zoom then address, and assign clip ids densely starting from 1. -/
def startRender (wraps : List Int) (m : SourceImpl) : SourceImpl :=
  { m with renderTiles := assignClipIds 1 (sortLe rtLe (renderEntries wraps m)) }

/-- Features of the live tile a render tile references (non-owning dereference). -/
def tileQuery (m : SourceImpl) (rt : RenderTile) : List Feature :=
  match lookupKey rt.sourceKey m.tiles with
  | some t => t.features
  | none => []

/-- Append a feature into the per-source-layer result map (insertion order of
layers preserved, per-layer order preserved). -/
def insertFeature (acc : List (String × List Feature)) (f : Feature) :
    List (String × List Feature) :=
  match acc with
  | [] => [(f.layer, [f])]
  | (name, fs) :: rest =>
    if name = f.layer then (name, fs ++ [f]) :: rest
    else (name, fs) :: insertFeature rest f

/-- Modelled from the spec: Source::Impl::queryRenderedFeatures — forward the
query to every currently-rendered tile, filter by the requested source-layers
(empty filter means all), and merge results per source-layer name in tile
iteration order. The screen geometry is opaque to this model. -/
def queryRenderedFeatures (m : SourceImpl) (_geometry : Nat)
    (layers : List String) : List (String × List Feature) :=
  ((m.renderTiles.flatMap (tileQuery m)).filter
    (fun f => layers.isEmpty || layers.contains f.layer)).foldl insertFeature []

/-- Modelled from the spec: Source::Impl::querySourceFeatures — forward to every
live tile regardless of visibility, filtered by the caller-supplied source-layer
names (empty filter means all), concatenating results with no de-duplication. -/
def querySourceFeatures (m : SourceImpl) (layers : List String) : List Feature :=
  m.tiles.flatMap fun kt =>
    kt.2.features.filter fun f => layers.isEmpty || layers.contains f.layer

/-- State-passing embedding of the const member function
Source::Impl::queryRenderedFeatures: the result together with the manager state
after the call. -/
def queryRenderedFeaturesRun (m : SourceImpl) (geometry : Nat)
    (layers : List String) : List (String × List Feature) × SourceImpl :=
  (queryRenderedFeatures m geometry layers, m)

end SourceImpl

/-- Sample address A (z=2, x=0, y=0). -/
def kA : OverscaledTileID := ⟨2, ⟨2, 0, 0⟩⟩

/-- Sample address B (z=2, x=1, y=0). -/
def kB : OverscaledTileID := ⟨2, ⟨2, 1, 0⟩⟩

/-- Sample address C (z=2, x=2, y=0). -/
def kC : OverscaledTileID := ⟨2, ⟨2, 2, 0⟩⟩

/-- Sample loaded tile at A, instance 10. -/
def tA : Tile := ⟨10, kA, TileState.Loaded, [⟨"water", 0⟩]⟩

/-- Sample loaded tile at B, instance 11. -/
def tB : Tile := ⟨11, kB, TileState.Loaded, [⟨"roads", 1⟩]⟩

/-- Sample loaded tile at C, instance 12. -/
def tC : Tile := ⟨12, kC, TileState.Loaded, []⟩

/-- Sample camera parameters. -/
def pEx : UpdateParameters := ⟨2, 0, 1, 0, 0, 0, 4⟩

/-- Sample manager state with one loaded live tile at A and an empty cache of
capacity 2. -/
def mEx : SourceImpl :=
  { tiles := [(kA, tA)], cache := ⟨2, []⟩, renderTiles := [],
    nextTileId := 20, loadsIssued := 5 }

/-- Sample manager state with tile A live and tile B retired in the cache. -/
def mC3 : SourceImpl :=
  { tiles := [(kA, tA)], cache := ⟨2, [(kB, tB)]⟩, renderTiles := [],
    nextTileId := 20, loadsIssued := 5 }

/-! Association-list lemmas. -/

theorem lookupKey_append_some {κ β : Type} [DecidableEq κ] {k : κ}
    {l l₂ : List (κ × β)} {v : β} (h : lookupKey k l = some v) :
    lookupKey k (l ++ l₂) = some v := by
  induction l with
  | nil => simp [lookupKey] at h
  | cons p l ih =>
    obtain ⟨k₁, v₁⟩ := p
    by_cases hk : k₁ = k
    · simp_all [lookupKey]
    · simp_all [lookupKey, hk]

theorem lookupKey_append_none {κ β : Type} [DecidableEq κ] {k : κ}
    {l l₂ : List (κ × β)} (h : lookupKey k l = none) :
    lookupKey k (l ++ l₂) = lookupKey k l₂ := by
  induction l with
  | nil => simp
  | cons p l ih =>
    obtain ⟨k₁, v₁⟩ := p
    by_cases hk : k₁ = k
    · simp_all [lookupKey]
    · simp_all [lookupKey, hk]

theorem lookupKey_mem {κ β : Type} [DecidableEq κ] {k : κ}
    {l : List (κ × β)} {v : β} (h : lookupKey k l = some v) : (k, v) ∈ l := by
  induction l with
  | nil => simp [lookupKey] at h
  | cons p l ih =>
    obtain ⟨k₁, v₁⟩ := p
    by_cases hk : k₁ = k
    · subst hk
      simp [lookupKey] at h
      subst h
      exact List.mem_cons_self _ _
    · simp only [lookupKey, if_neg hk] at h
      exact List.mem_cons_of_mem _ (ih h)

theorem length_eraseKey_le {κ β : Type} [DecidableEq κ] (k : κ)
    (l : List (κ × β)) : (eraseKey k l).length ≤ l.length := by
  induction l with
  | nil => simp [eraseKey]
  | cons p l ih =>
    obtain ⟨k₁, v₁⟩ := p
    by_cases hk : k₁ = k
    · simp [eraseKey, hk]
    · simp only [eraseKey, if_neg hk, List.length_cons]
      omega

theorem length_eraseKey_of_some {κ β : Type} [DecidableEq κ] {k : κ}
    {l : List (κ × β)} {v : β} (h : lookupKey k l = some v) :
    (eraseKey k l).length + 1 = l.length := by
  induction l with
  | nil => simp [lookupKey] at h
  | cons p l ih =>
    obtain ⟨k₁, v₁⟩ := p
    by_cases hk : k₁ = k
    · simp [eraseKey, hk]
    · simp only [lookupKey, if_neg hk] at h
      simp only [eraseKey, if_neg hk, List.length_cons]
      have := ih h
      omega

/-! TileCache occupancy lemmas. -/

theorem trim_size_le (c : TileCache) : c.trim.size ≤ c.capacity := by
  simp only [TileCache.trim, TileCache.size, List.length_drop]
  omega

theorem trim_capacity (c : TileCache) : c.trim.capacity = c.capacity := rfl

theorem applyCacheOp_invariant (c : TileCache) (op : CacheOp)
    (h : c.size ≤ c.capacity) :
    (applyCacheOp c op).size ≤ (applyCacheOp c op).capacity := by
  cases op with
  | retire k t =>
    simp only [applyCacheOp, TileCache.add]
    split
    · exact h
    · exact trim_size_le _
  | reuse k =>
    simp only [applyCacheOp, TileCache.get]
    cases hl : lookupKey k c.entries with
    | none => simpa using h
    | some t =>
      simp only [TileCache.size]
      have := length_eraseKey_of_some hl
      simp only [TileCache.size] at h
      omega
  | setCacheSize n => exact trim_size_le _

theorem foldl_applyCacheOp_invariant (ops : List CacheOp) (c₀ : TileCache)
    (h : c₀.size ≤ c₀.capacity) :
    (ops.foldl applyCacheOp c₀).size ≤ (ops.foldl applyCacheOp c₀).capacity := by
  induction ops generalizing c₀ with
  | nil => simpa using h
  | cons op ops ih => exact ih _ (applyCacheOp_invariant _ _ h)

/-- C1: for every sequence of retire, reuse, and setCacheSize operations, after
each operation (every intermediate state of the sequence) the number of cache
entries is at most the configured capacity; and with capacity 0 every retire
discards the tile immediately, leaving the cache exactly as it was (so an empty
cache retains nothing). -/
theorem tileCache_occupancy_bounded :
    (∀ (c₀ : TileCache) (ops : List CacheOp), c₀.size ≤ c₀.capacity →
      ∀ i : Nat,
        ((ops.take i).foldl applyCacheOp c₀).size ≤
          ((ops.take i).foldl applyCacheOp c₀).capacity)
    ∧ (∀ (c : TileCache) (k : OverscaledTileID) (t : Tile),
        c.capacity = 0 → c.add k t = c ∧
          (c.entries = [] → (c.add k t).entries = [])) := by
  constructor
  · intro c₀ ops h i
    exact foldl_applyCacheOp_invariant (ops.take i) c₀ h
  · intro c k t hc
    constructor
    · simp [TileCache.add, hc]
    · intro he
      simp [TileCache.add, hc, he]

/-- Witness for C1 at a concrete three-retire sequence on an empty cache of
capacity 2, observed after the third operation, plus a capacity-0 retire. -/
theorem tileCache_occupancy_bounded_witness :
    ((([CacheOp.retire kA tA, CacheOp.retire kB tB,
        CacheOp.retire kC tC].take 3).foldl applyCacheOp
        (⟨2, []⟩ : TileCache)).size ≤
      (([CacheOp.retire kA tA, CacheOp.retire kB tB,
        CacheOp.retire kC tC].take 3).foldl applyCacheOp
        (⟨2, []⟩ : TileCache)).capacity)
    ∧ (⟨0, []⟩ : TileCache).add kA tA = (⟨0, []⟩ : TileCache) :=
  ⟨tileCache_occupancy_bounded.1 (⟨2, []⟩ : TileCache)
      [CacheOp.retire kA tA, CacheOp.retire kB tB, CacheOp.retire kC tC]
      (by decide) 3,
    (tileCache_occupancy_bounded.2 (⟨0, []⟩ : TileCache) kA tA rfl).1⟩

/-! FIFO eviction. -/

theorem tileCache_add_evicts_oldest (c : TileCache) (k : OverscaledTileID)
    (t : Tile) (hcap : 0 < c.capacity) (hlen : c.entries.length = c.capacity) :
    (c.add k t).entries = c.entries.tail ++ [(k, t)] := by
  simp only [TileCache.add]
  rw [if_neg (by omega)]
  cases hc : c.entries with
  | nil =>
    rw [hc] at hlen
    simp only [List.length_nil] at hlen
    omega
  | cons e rest =>
    rw [hc] at hlen
    simp only [List.length_cons] at hlen
    simp only [TileCache.trim, hc]
    have h1 : ((e :: rest) ++ [(k, t)]).length - c.capacity = 1 := by
      simp only [List.length_append, List.length_cons, List.length_nil]
      omega
    rw [h1]
    simp

/-- C4: when the cache is full, the entry evicted by a retire is the one with
the oldest retirement time (strict FIFO order); and concretely, with capacity 2,
retiring A, B, C in order leaves exactly [B, C] (A evicted as oldest), and then
re-requesting B hands back the cached instance tB with no new load issued,
leaving the cache holding exactly [C]. -/
theorem tileCache_fifo :
    (∀ (c : TileCache) (k : OverscaledTileID) (t : Tile),
      0 < c.capacity → c.entries.length = c.capacity →
      (c.add k t).entries = c.entries.tail ++ [(k, t)])
    ∧ ((((⟨2, []⟩ : TileCache).add kA tA).add kB tB).add kC tC).entries
        = [(kB, tB), (kC, tC)]
    ∧ (SourceImpl.acquireTile pEx
        ⟨[], (((⟨2, []⟩ : TileCache).add kA tA).add kB tB).add kC tC, [], 0, 5⟩
        kB).tiles = [(kB, tB)]
    ∧ (SourceImpl.acquireTile pEx
        ⟨[], (((⟨2, []⟩ : TileCache).add kA tA).add kB tB).add kC tC, [], 0, 5⟩
        kB).loadsIssued = 5
    ∧ (SourceImpl.acquireTile pEx
        ⟨[], (((⟨2, []⟩ : TileCache).add kA tA).add kB tB).add kC tC, [], 0, 5⟩
        kB).cache.entries = [(kC, tC)] := by
  refine ⟨tileCache_add_evicts_oldest, ?_, ?_, ?_, ?_⟩ <;> decide

/-- Witness for C4: adding to a full capacity-2 cache holding [A, B] evicts A. -/
theorem tileCache_fifo_witness :
    ((⟨2, [(kA, tA), (kB, tB)]⟩ : TileCache).add kC tC).entries
      = [(kA, tA), (kB, tB)].tail ++ [(kC, tC)] :=
  tileCache_fifo.1 ⟨2, [(kA, tA), (kB, tB)]⟩ kC tC (by decide) (by decide)

/-- C5: after invalidateTiles the live-tiles map is empty, the TileCache is
empty, and any subsequent queryRenderedFeatures or querySourceFeatures call
returns no results. -/
theorem invalidateTiles_clears (m : SourceImpl) (g : Nat)
    (layers : List String) :
    (SourceImpl.invalidateTiles m).tiles = []
    ∧ (SourceImpl.invalidateTiles m).cache.entries = []
    ∧ SourceImpl.queryRenderedFeatures (SourceImpl.invalidateTiles m) g layers
        = []
    ∧ SourceImpl.querySourceFeatures (SourceImpl.invalidateTiles m) layers
        = [] :=
  ⟨rfl, rfl, rfl, rfl⟩

/-- C8: the ActiveSetCalculator is a pure, deterministic function — two
invocations with identical viewport bounds, zoom, visible region and native
zoom range produce the identical ordered address list. -/
theorem activeSet_deterministic (p q : UpdateParameters)
    (h₁ : p.zoom = q.zoom) (h₂ : p.minX = q.minX) (h₃ : p.maxX = q.maxX)
    (h₄ : p.minY = q.minY) (h₅ : p.maxY = q.maxY)
    (h₆ : p.minZoom = q.minZoom) (h₇ : p.maxZoom = q.maxZoom) :
    activeSet p = activeSet q := by
  obtain ⟨z, a, b, c, d, e, f⟩ := p
  obtain ⟨z₁, a₁, b₁, c₁, d₁, e₁, f₁⟩ := q
  simp only at h₁ h₂ h₃ h₄ h₅ h₆ h₇
  subst h₁ h₂ h₃ h₄ h₅ h₆ h₇
  rfl

/-- Witness for C8: two textually separate invocations at the sample camera
parameters coincide. -/
theorem activeSet_deterministic_witness : activeSet pEx = activeSet pEx :=
  activeSet_deterministic pEx pEx rfl rfl rfl rfl rfl rfl rfl

/-- C9: reloadTiles re-issues one load per live tile with its state reset to
Loading, and the membership (key list) of the live-tiles map is unchanged. -/
theorem reloadTiles_spec (m : SourceImpl) :
    (SourceImpl.reloadTiles m).tiles.map Prod.fst = m.tiles.map Prod.fst
    ∧ (∀ kt ∈ (SourceImpl.reloadTiles m).tiles, kt.2.state = TileState.Loading)
    ∧ (SourceImpl.reloadTiles m).loadsIssued
        = m.loadsIssued + m.tiles.length := by
  refine ⟨?_, ?_, rfl⟩
  · simp [SourceImpl.reloadTiles, List.map_map]
  · intro kt hkt
    simp only [SourceImpl.reloadTiles, List.mem_map] at hkt
    obtain ⟨a, _, rfl⟩ := hkt
    rfl

/-- Witness for C9 at the sample manager: keys unchanged and the reloaded tile
at A is Loading. -/
theorem reloadTiles_spec_witness :
    (SourceImpl.reloadTiles mEx).tiles.map Prod.fst = mEx.tiles.map Prod.fst
    ∧ ((kA, (⟨10, kA, TileState.Loading, [⟨"water", 0⟩]⟩ : Tile)) :
        OverscaledTileID × Tile).2.state = TileState.Loading :=
  ⟨(reloadTiles_spec mEx).1,
    (reloadTiles_spec mEx).2.1 (kA, ⟨10, kA, TileState.Loading, [⟨"water", 0⟩]⟩)
      (by decide)⟩

/-- C10: queryRenderedFeatures mutates no manager state — after the call the
live-tiles map, the cache (contents and capacity) and the render-tiles map are
exactly as before, and the returned value is the pure query result. -/
theorem queryRenderedFeatures_const (m : SourceImpl) (g : Nat)
    (layers : List String) :
    (SourceImpl.queryRenderedFeaturesRun m g layers).2.tiles = m.tiles
    ∧ (SourceImpl.queryRenderedFeaturesRun m g layers).2.cache = m.cache
    ∧ (SourceImpl.queryRenderedFeaturesRun m g layers).2.renderTiles
        = m.renderTiles
    ∧ (SourceImpl.queryRenderedFeaturesRun m g layers).1
        = SourceImpl.queryRenderedFeatures m g layers :=
  ⟨rfl, rfl, rfl, rfl⟩

/-! Reconciliation lemmas: acquireTile, removeStaleTiles, retainSet. -/

theorem lookupKey_filter {κ β : Type} [DecidableEq κ] (f : κ → Bool) (k : κ)
    (l : List (κ × β)) :
    lookupKey k (l.filter fun kt => f kt.1)
      = if f k = true then lookupKey k l else none := by
  induction l with
  | nil => simp [lookupKey]
  | cons kt l ih =>
    obtain ⟨k₁, v₁⟩ := kt
    by_cases hk : k₁ = k
    · subst hk
      by_cases hf : f k₁ = true <;>
        simp [List.filter_cons, hf, lookupKey, ih]
    · by_cases hf : f k₁ = true <;>
        simp [List.filter_cons, hf, lookupKey, hk, ih]

theorem removeStaleTiles_lookup (retain : List OverscaledTileID)
    (m : SourceImpl) (k : OverscaledTileID) :
    lookupKey k ((SourceImpl.removeStaleTiles retain m).tiles)
      = if k ∈ retain then lookupKey k m.tiles else none := by
  simp only [SourceImpl.removeStaleTiles]
  rw [lookupKey_filter (fun x => decide (x ∈ retain)) k m.tiles]
  by_cases h : k ∈ retain <;> simp [h]

theorem removeStaleTiles_of_retained (retain : List OverscaledTileID)
    (m : SourceImpl) (h : ∀ kt ∈ m.tiles, kt.1 ∈ retain) :
    SourceImpl.removeStaleTiles retain m = m := by
  simp only [SourceImpl.removeStaleTiles]
  have h₁ : (m.tiles.filter fun kt => decide (kt.1 ∈ retain)) = m.tiles :=
    List.filter_eq_self.2 fun kt hkt => by simpa using h kt hkt
  have h₂ : (m.tiles.filter fun kt => ! decide (kt.1 ∈ retain)) = [] :=
    List.filter_eq_nil_iff.2 fun kt hkt => by simpa using h kt hkt
  rw [h₁, h₂]
  rfl

theorem mem_retainSet_of_mem_ideal {k : OverscaledTileID}
    {ideal : List OverscaledTileID} (m₁ : SourceImpl) (h : k ∈ ideal) :
    k ∈ SourceImpl.retainSet ideal m₁ := by
  unfold SourceImpl.retainSet
  split
  · exact h
  · exact List.mem_append_left _ h

theorem mem_retainSet_cases {k : OverscaledTileID}
    {ideal : List OverscaledTileID} {m₁ : SourceImpl}
    (h : k ∈ SourceImpl.retainSet ideal m₁) :
    k ∈ ideal ∨ relatedTo k ideal = true := by
  unfold SourceImpl.retainSet at h
  split at h
  · exact Or.inl h
  · rcases List.mem_append.1 h with h₁ | h₁
    · exact Or.inl h₁
    · exact Or.inr (List.mem_filter.1 h₁).2

theorem acquireTile_lookup_mono (p : UpdateParameters) (m : SourceImpl)
    (k j : OverscaledTileID) (v : Tile) (h : lookupKey j m.tiles = some v) :
    lookupKey j ((SourceImpl.acquireTile p m k).tiles) = some v := by
  unfold SourceImpl.acquireTile
  split
  · exact h
  · rcases hg : m.cache.get k with ⟨o, c₁⟩
    rcases o with _ | t <;> exact lookupKey_append_some h

theorem acquireTile_makes_live (p : UpdateParameters) (m : SourceImpl)
    (k : OverscaledTileID) :
    (lookupKey k ((SourceImpl.acquireTile p m k).tiles)).isSome := by
  unfold SourceImpl.acquireTile
  split
  · assumption
  · rename_i hlive
    have hnone : lookupKey k m.tiles = none :=
      Option.not_isSome_iff_eq_none.1 (by simpa using hlive)
    rcases hg : m.cache.get k with ⟨o, c₁⟩
    rcases o with _ | t <;>
      simp [lookupKey_append_none hnone, lookupKey]

theorem foldl_acquire_lookup_mono (p : UpdateParameters)
    (l : List OverscaledTileID) (m : SourceImpl) (j : OverscaledTileID)
    (v : Tile) (h : lookupKey j m.tiles = some v) :
    lookupKey j ((l.foldl (SourceImpl.acquireTile p) m).tiles) = some v := by
  induction l generalizing m with
  | nil => exact h
  | cons i l ih =>
    exact ih (SourceImpl.acquireTile p m i) (acquireTile_lookup_mono p m i j v h)

theorem foldl_acquire_ideal_live (p : UpdateParameters)
    (l : List OverscaledTileID) (m : SourceImpl) :
    ∀ k ∈ l, (lookupKey k ((l.foldl (SourceImpl.acquireTile p) m).tiles)).isSome := by
  induction l generalizing m with
  | nil => intro k hk; cases hk
  | cons i l ih =>
    intro k hk
    rcases List.mem_cons.1 hk with hk | hk
    · subst hk
      simp only [List.foldl_cons]
      obtain ⟨v, hv⟩ := Option.isSome_iff_exists.1
        (acquireTile_makes_live p m k)
      rw [foldl_acquire_lookup_mono p l _ k v hv]
      rfl
    · exact ih (SourceImpl.acquireTile p m i) k hk

/-- C2: after any updateTiles call, every ideal address is present in the
live-tiles map, and every address present is either ideal or a stale fallback
that is an ancestor or descendant of some ideal address — the live set equals
the ideal set modulo related stale tiles. -/
theorem updateTiles_reconciles (p : UpdateParameters) (m : SourceImpl) :
    (∀ k ∈ activeSet p,
      (lookupKey k ((SourceImpl.updateTiles p m).tiles)).isSome)
    ∧ (∀ k : OverscaledTileID,
        (lookupKey k ((SourceImpl.updateTiles p m).tiles)).isSome →
          k ∈ activeSet p ∨ relatedTo k (activeSet p) = true) := by
  unfold SourceImpl.updateTiles SourceImpl.updateTilesWith
  constructor
  · intro k hk
    rw [removeStaleTiles_lookup, if_pos (mem_retainSet_of_mem_ideal _ hk)]
    exact foldl_acquire_ideal_live p (activeSet p) m k hk
  · intro k hk
    rw [removeStaleTiles_lookup] at hk
    by_cases hr : k ∈ SourceImpl.retainSet (activeSet p)
        ((activeSet p).foldl (SourceImpl.acquireTile p) m)
    · exact mem_retainSet_cases hr
    · rw [if_neg hr] at hk
      simp at hk

/-- Witness for C2: at the sample camera parameters the ideal set is [A, B] and
both are live after the update. -/
theorem updateTiles_reconciles_witness :
    (lookupKey kA ((SourceImpl.updateTiles pEx mEx).tiles)).isSome :=
  (updateTiles_reconciles pEx mEx).1 kA (by decide)

/-! Cache-reuse round trip. -/

theorem acquireTile_of_live (p : UpdateParameters) (m : SourceImpl)
    (k : OverscaledTileID) (h : (lookupKey k m.tiles).isSome) :
    SourceImpl.acquireTile p m k = m := by
  unfold SourceImpl.acquireTile
  rw [if_pos h]

theorem foldl_acquire_all_live (p : UpdateParameters)
    (l : List OverscaledTileID) (m : SourceImpl)
    (h : ∀ j ∈ l, (lookupKey j m.tiles).isSome) :
    l.foldl (SourceImpl.acquireTile p) m = m := by
  induction l with
  | nil => rfl
  | cons i l ih =>
    simp only [List.foldl_cons,
      acquireTile_of_live p m i (h i (List.mem_cons_self i l))]
    exact ih fun j hj => h j (List.mem_cons_of_mem i hj)

theorem acquireTile_cache_hit (p : UpdateParameters) (m : SourceImpl)
    (k : OverscaledTileID) (t : Tile) (hnl : lookupKey k m.tiles = none)
    (hc : lookupKey k m.cache.entries = some t) :
    SourceImpl.acquireTile p m k =
      { m with tiles := m.tiles ++ [(k, t)],
               cache := { m.cache with entries := eraseKey k m.cache.entries } } := by
  unfold SourceImpl.acquireTile
  rw [if_neg (by simp [hnl])]
  have hg : m.cache.get k
      = (some t, { m.cache with entries := eraseKey k m.cache.entries }) := by
    simp [TileCache.get, hc]
  rw [hg]

theorem foldl_acquire_single (p : UpdateParameters) (k : OverscaledTileID)
    (ideal : List OverscaledTileID) (m : SourceImpl)
    (hmem : k ∈ ideal)
    (hnl : lookupKey k m.tiles = none)
    (hothers : ∀ j ∈ ideal, j = k ∨ (lookupKey j m.tiles).isSome) :
    ideal.foldl (SourceImpl.acquireTile p) m = SourceImpl.acquireTile p m k := by
  induction ideal with
  | nil => cases hmem
  | cons i rest ih =>
    simp only [List.foldl_cons]
    by_cases hik : i = k
    · subst hik
      apply foldl_acquire_all_live
      intro j hj
      rcases hothers j (List.mem_cons_of_mem i hj) with hjk | hjl
      · subst hjk
        exact acquireTile_makes_live p m j
      · obtain ⟨v, hv⟩ := Option.isSome_iff_exists.1 hjl
        rw [acquireTile_lookup_mono p m i j v hv]
        rfl
    · have hil : (lookupKey i m.tiles).isSome := by
        rcases hothers i (List.mem_cons_self i rest) with h | h
        · exact absurd h hik
        · exact h
      rw [acquireTile_of_live p m i hil]
      have hkrest : k ∈ rest := by
        rcases List.mem_cons.1 hmem with h | h
        · exact absurd h.symm hik
        · exact h
      exact ih hkrest fun j hj => hothers j (List.mem_cons_of_mem i hj)

/-- C3: a tile retired into the cache and re-requested by a later update before
eviction moves back into the live-tiles map as the exact same Tile instance,
with no new load issued and the cache occupancy down by one. Hypotheses pin the
scenario: the re-requested address is ideal but not live, the cache holds it,
every other ideal address is already live, and every live address stays ideal. -/
theorem retire_rerequest_roundtrip (p : UpdateParameters) (m : SourceImpl)
    (ideal : List OverscaledTileID) (k : OverscaledTileID) (t : Tile)
    (hnl : lookupKey k m.tiles = none)
    (hc : lookupKey k m.cache.entries = some t)
    (hmem : k ∈ ideal)
    (hothers : ∀ j ∈ ideal, j = k ∨ (lookupKey j m.tiles).isSome)
    (hlive : ∀ kt ∈ m.tiles, kt.1 ∈ ideal) :
    lookupKey k ((SourceImpl.updateTilesWith p ideal m).tiles) = some t
    ∧ (SourceImpl.updateTilesWith p ideal m).loadsIssued = m.loadsIssued
    ∧ (SourceImpl.updateTilesWith p ideal m).cache.size + 1 = m.cache.size := by
  have hfold := foldl_acquire_single p k ideal m hmem hnl hothers
  have hacq := acquireTile_cache_hit p m k t hnl hc
  have hupd : SourceImpl.updateTilesWith p ideal m
      = { m with tiles := m.tiles ++ [(k, t)],
                 cache := { m.cache with entries := eraseKey k m.cache.entries } } := by
    unfold SourceImpl.updateTilesWith
    rw [hfold, hacq]
    apply removeStaleTiles_of_retained
    intro kt hkt
    apply mem_retainSet_of_mem_ideal
    rcases List.mem_append.1 hkt with h | h
    · exact hlive kt h
    · have hkt₁ : kt = (k, t) := by simpa using h
      rw [hkt₁]
      exact hmem
  rw [hupd]
  refine ⟨?_, rfl, ?_⟩
  · show lookupKey k (m.tiles ++ [(k, t)]) = some t
    rw [lookupKey_append_none hnl]
    simp [lookupKey]
  · show (eraseKey k m.cache.entries).length + 1 = m.cache.entries.length
    exact length_eraseKey_of_some hc

/-- Witness for C3: tile B sits in the cache of the sample manager, the ideal
set [A, B] re-requests it, and the round trip restores the very instance tB. -/
theorem retire_rerequest_roundtrip_witness :
    lookupKey kB ((SourceImpl.updateTilesWith pEx [kA, kB] mC3).tiles) = some tB
    ∧ (SourceImpl.updateTilesWith pEx [kA, kB] mC3).loadsIssued
        = mC3.loadsIssued
    ∧ (SourceImpl.updateTilesWith pEx [kA, kB] mC3).cache.size + 1
        = mC3.cache.size :=
  retire_rerequest_roundtrip pEx mC3 [kA, kB] kB tB (by decide) (by decide)
    (by decide) (by decide) (by decide)

/-! Render-list ordering and clip-id lemmas. -/

theorem rtLe_total (a b : RenderTile) : rtLe a b = true ∨ rtLe b a = true := by
  simp only [rtLe, Bool.or_eq_true, Bool.and_eq_true, decide_eq_true_eq]
  omega

theorem rtLe_trans (a b c : RenderTile) (h₁ : rtLe a b = true)
    (h₂ : rtLe b c = true) : rtLe a c = true := by
  simp only [rtLe, Bool.or_eq_true, Bool.and_eq_true, decide_eq_true_eq]
    at h₁ h₂ ⊢
  omega

theorem mem_insertLe {α : Type} (le : α → α → Bool) (a x : α) (l : List α) :
    x ∈ insertLe le a l ↔ x = a ∨ x ∈ l := by
  induction l with
  | nil => simp [insertLe]
  | cons b l ih =>
    simp only [insertLe]
    split
    · simp [List.mem_cons]
    · simp only [List.mem_cons, ih]
      tauto

theorem mem_sortLe {α : Type} (le : α → α → Bool) (x : α) (l : List α) :
    x ∈ sortLe le l ↔ x ∈ l := by
  induction l with
  | nil => simp [sortLe]
  | cons a l ih =>
    simp [sortLe, mem_insertLe, ih]

theorem pairwise_insertLe {α : Type} (le : α → α → Bool)
    (htot : ∀ a b, le a b = true ∨ le b a = true)
    (htrans : ∀ a b c, le a b = true → le b c = true → le a c = true)
    (a : α) (l : List α) (h : l.Pairwise fun x y => le x y = true) :
    (insertLe le a l).Pairwise fun x y => le x y = true := by
  induction l with
  | nil => simp [insertLe]
  | cons b l ih =>
    rcases h with _ | ⟨hb, hl⟩
    simp only [insertLe]
    split
    · rename_i hab
      refine List.Pairwise.cons ?_ (List.Pairwise.cons hb hl)
      intro x hx
      rcases List.mem_cons.1 hx with rfl | hx
      · exact hab
      · exact htrans a b x hab (hb x hx)
    · rename_i hab
      have hba : le b a = true := (htot a b).resolve_left hab
      refine List.Pairwise.cons ?_ (ih hl)
      intro x hx
      rcases (mem_insertLe le a x l).1 hx with rfl | hx
      · exact hba
      · exact hb x hx

theorem pairwise_sortLe {α : Type} (le : α → α → Bool)
    (htot : ∀ a b, le a b = true ∨ le b a = true)
    (htrans : ∀ a b c, le a b = true → le b c = true → le a c = true)
    (l : List α) : (sortLe le l).Pairwise fun x y => le x y = true := by
  induction l with
  | nil => exact List.Pairwise.nil
  | cons a l ih => exact pairwise_insertLe le htot htrans a _ ih

theorem mem_assignClipIds {n : Nat} {l : List RenderTile} {rt : RenderTile}
    (h : rt ∈ assignClipIds n l) :
    ∃ r ∈ l, ∃ c, rt = { r with clipId := c } := by
  induction l generalizing n with
  | nil => cases h
  | cons r l ih =>
    rcases List.mem_cons.1 h with rfl | h
    · exact ⟨r, List.mem_cons_self r l, n, rfl⟩
    · obtain ⟨r₁, hr₁, c, rfl⟩ := ih h
      exact ⟨r₁, List.mem_cons_of_mem r hr₁, c, rfl⟩

theorem assignClipIds_mem_of {l : List RenderTile} {r : RenderTile} (n : Nat)
    (h : r ∈ l) : ∃ c, { r with clipId := c } ∈ assignClipIds n l := by
  induction l generalizing n with
  | nil => cases h
  | cons r₁ l ih =>
    rcases List.mem_cons.1 h with rfl | h
    · exact ⟨n, List.mem_cons_self _ _⟩
    · obtain ⟨c, hc⟩ := ih (n + 1) h
      exact ⟨c, List.mem_cons_of_mem _ hc⟩

theorem assignClipIds_clip_ge {n : Nat} {l : List RenderTile} {rt : RenderTile}
    (h : rt ∈ assignClipIds n l) : n ≤ rt.clipId := by
  induction l generalizing n with
  | nil => cases h
  | cons r l ih =>
    rcases List.mem_cons.1 h with rfl | h
    · exact Nat.le_refl n
    · have := ih h
      omega

theorem assignClipIds_clip_lt (n : Nat) (l : List RenderTile) :
    (assignClipIds n l).Pairwise fun a b => a.clipId < b.clipId := by
  induction l generalizing n with
  | nil => exact List.Pairwise.nil
  | cons r l ih =>
    refine List.Pairwise.cons ?_ (ih (n + 1))
    intro b hb
    have := assignClipIds_clip_ge hb
    show n < b.clipId
    omega

theorem assignClipIds_clip_ne {n : Nat} {l : List RenderTile}
    {a b : RenderTile} (ha : a ∈ assignClipIds n l)
    (hb : b ∈ assignClipIds n l) (hab : a ≠ b) : a.clipId ≠ b.clipId := by
  have hp : (assignClipIds n l).Pairwise fun x y => x.clipId ≠ y.clipId :=
    (assignClipIds_clip_lt n l).imp fun h => Nat.ne_of_lt h
  exact List.Pairwise.forall (fun x y h => Ne.symm h) hp ha hb hab

theorem assignClipIds_pairwise_rtLe {l : List RenderTile} {n : Nat}
    (h : l.Pairwise fun x y => rtLe x y = true) :
    (assignClipIds n l).Pairwise fun x y => rtLe x y = true := by
  induction l generalizing n with
  | nil => exact List.Pairwise.nil
  | cons r l ih =>
    rcases h with _ | ⟨hr, hl⟩
    refine List.Pairwise.cons ?_ (ih hl)
    intro b hb
    obtain ⟨r₁, hr₁, c, rfl⟩ := mem_assignClipIds hb
    exact hr r₁ hr₁

theorem assignClipIds_map_clip (n : Nat) (l : List RenderTile) :
    (assignClipIds n l).map RenderTile.clipId = clipRange n l.length := by
  induction l generalizing n with
  | nil => rfl
  | cons r l ih => simp [assignClipIds, clipRange, ih]

theorem length_assignClipIds (n : Nat) (l : List RenderTile) :
    (assignClipIds n l).length = l.length := by
  induction l generalizing n with
  | nil => rfl
  | cons r l ih => simp [assignClipIds, ih]

/-- C7: each frame's render list is sorted by ascending zoom then address
(coarser tiles precede finer overlapping tiles), its clip identifiers are the
dense range starting from 1, and clip identifiers are unique across the
frame's RenderTiles (hence among any spatially overlapping ones). -/
theorem renderList_sorted_and_clipped (wraps : List Int) (m : SourceImpl) :
    ((SourceImpl.startRender wraps m).renderTiles.Pairwise fun a b =>
        rtLe a b = true)
    ∧ (SourceImpl.startRender wraps m).renderTiles.map RenderTile.clipId
        = clipRange 1 (SourceImpl.startRender wraps m).renderTiles.length
    ∧ (∀ a ∈ (SourceImpl.startRender wraps m).renderTiles,
        ∀ b ∈ (SourceImpl.startRender wraps m).renderTiles,
          a ≠ b → a.clipId ≠ b.clipId) := by
  refine ⟨?_, ?_, ?_⟩
  · exact assignClipIds_pairwise_rtLe
      (pairwise_sortLe rtLe rtLe_total rtLe_trans _)
  · show (assignClipIds 1 (sortLe rtLe (SourceImpl.renderEntries wraps m))).map
        RenderTile.clipId
      = clipRange 1
        (assignClipIds 1 (sortLe rtLe (SourceImpl.renderEntries wraps m))).length
    rw [assignClipIds_map_clip, length_assignClipIds]
  · intro a ha b hb hab
    exact assignClipIds_clip_ne ha hb hab

/-- C6: two addresses equal up to wrap share one Tile instance — the live map is
keyed without wrap, render preparation emits one RenderTile per distinct wrap,
both referencing the tileId of that single instance, their clip ids are
distinct, and no load is issued by render preparation. -/
theorem wrap_shares_instance (m : SourceImpl) (wraps : List Int)
    (w₁ w₂ : Int) (k : OverscaledTileID) (t : Tile)
    (hw₁ : w₁ ∈ wraps) (hw₂ : w₂ ∈ wraps) (hw : w₁ ≠ w₂)
    (ht : lookupKey k m.tiles = some t) (hl : t.state = TileState.Loaded) :
    ∃ rt₁ ∈ (SourceImpl.startRender wraps m).renderTiles,
      ∃ rt₂ ∈ (SourceImpl.startRender wraps m).renderTiles,
        rt₁.id = ⟨w₁, k.canonical⟩ ∧ rt₂.id = ⟨w₂, k.canonical⟩
        ∧ rt₁.tileId = t.tileId ∧ rt₂.tileId = t.tileId
        ∧ rt₁.clipId ≠ rt₂.clipId
        ∧ (SourceImpl.startRender wraps m).loadsIssued = m.loadsIssued := by
  have hmem : ∀ w ∈ wraps,
      (⟨⟨w, k.canonical⟩, k, t.tileId, 0⟩ : RenderTile)
        ∈ SourceImpl.renderEntries wraps m := by
    intro w hw₀
    unfold SourceImpl.renderEntries
    refine List.mem_flatMap.2 ⟨w, hw₀, ?_⟩
    refine List.mem_filterMap.2 ⟨(k, t), lookupKey_mem ht, ?_⟩
    simp [hl]
  have hs₁ : (⟨⟨w₁, k.canonical⟩, k, t.tileId, 0⟩ : RenderTile)
      ∈ sortLe rtLe (SourceImpl.renderEntries wraps m) :=
    (mem_sortLe rtLe _ _).2 (hmem w₁ hw₁)
  have hs₂ : (⟨⟨w₂, k.canonical⟩, k, t.tileId, 0⟩ : RenderTile)
      ∈ sortLe rtLe (SourceImpl.renderEntries wraps m) :=
    (mem_sortLe rtLe _ _).2 (hmem w₂ hw₂)
  obtain ⟨c₁, hc₁⟩ := assignClipIds_mem_of 1 hs₁
  obtain ⟨c₂, hc₂⟩ := assignClipIds_mem_of 1 hs₂
  refine ⟨_, hc₁, _, hc₂, rfl, rfl, rfl, rfl, ?_, rfl⟩
  apply assignClipIds_clip_ne hc₁ hc₂
  intro hcontra
  have : w₁ = w₂ := congrArg (fun rt => rt.id.wrap) hcontra
  exact hw this

/-- Witness for C6: the sample manager's loaded tile at A rendered at wraps -1
and 0 produces two RenderTiles sharing instance 10 with distinct clip ids. -/
theorem wrap_shares_instance_witness :
    ∃ rt₁ ∈ (SourceImpl.startRender [-1, 0] mEx).renderTiles,
      ∃ rt₂ ∈ (SourceImpl.startRender [-1, 0] mEx).renderTiles,
        rt₁.id = ⟨-1, kA.canonical⟩ ∧ rt₂.id = ⟨0, kA.canonical⟩
        ∧ rt₁.tileId = tA.tileId ∧ rt₂.tileId = tA.tileId
        ∧ rt₁.clipId ≠ rt₂.clipId
        ∧ (SourceImpl.startRender [-1, 0] mEx).loadsIssued = mEx.loadsIssued :=
  wrap_shares_instance mEx [-1, 0] (-1) 0 kA tA (by decide) (by decide)
    (by decide) (by decide) (by decide)

end MbglTiles
